import Mathlib

/-!
Verification development for the `glue` application-bootstrap package.

The repository source (`glue.go`, `di.go`) contains two successive
implementations of the same package: a registry-based one (`initContainer`,
`registry`-backed version command) and a context-based one (`initBuilder`,
`withCancel`/`withValue`, context-backed version command).  Both share the
identical bundle dependency resolver (`registerBundles` /
`resolveDependencies`).  Below, every Go function relevant to the claims is
embedded as an executable Lean definition; machine words do not occur in the
relevant code, and the only partial functions (map lookups during the build
phase, unbounded recursion in the resolver) are made total with an `Option`
layer whose `none` is proved unreachable.
-/

/-- A bundle as supplied to the `Bundles` option.  `name` is `Name()`;
`dependsOn = some l` models a bundle that also implements the
`BundleDependsOn` interface with `DependsOn() = l`, `none` one that does not;
`buildErr = some m` models a `Build` method that returns the error `m`,
`none` one that succeeds. -/
structure Bundle where
  name : String
  dependsOn : Option (List String)
  buildErr : Option String
deriving DecidableEq, Repr

/-- The dependency list the resolver iterates over: empty when the bundle
does not implement `BundleDependsOn` (the type assertion in
`resolveDependencies` fails and the loop is skipped). -/
def depsOf (b : Bundle) : List String :=
  b.dependsOn.getD []

/-- Lookup in the `app.bundles` map, keyed by bundle name
(`a.bundles[name]`). -/
def bundlesGet (bundles : List Bundle) (n : String) : Option Bundle :=
  bundles.find? (fun b => b.name == n)

/-- The configuration errors produced during `NewApp`, one constructor per
`fmt.Errorf` site. -/
inductive GlueErr where
  /-- `trying to register two bundles with the same name "%s"` (option `Bundles`). -/
  | duplicateBundle (name : String)
  /-- `"%s" has circular dependency of itself` (`resolveDependencies`). -/
  | circular (name : String)
  /-- `"%s" can not depends on itself` (`resolveDependencies`). -/
  | selfDep (name : String)
  /-- `"%s" has unresoled dependency "%s"` (`resolveDependencies`). -/
  | unresolvedDep (name dep : String)
  /-- a bundle's own `Build` step returned an error (`registerBundles`). -/
  | buildFailed (name msg : String)
deriving DecidableEq, Repr

/-- The inner `for _, name := range v.DependsOn()` loop of
`resolveDependencies`: checks each dependency name against the bundle's own
name, looks it up in the bundle map, and recurses through `recur` (the outer
function at one less fuel), threading the `resolved`/`unresolved` slices.
An error returns immediately, exactly as the Go `return err`. -/
def resolveDependenciesDeps
    (lookup : String → Option Bundle)
    (recur : Bundle → List String → List String →
      Option (Except GlueErr (List String × List String)))
    (selfName : String) :
    List String → List String → List String →
      Option (Except GlueErr (List String × List String))
  | [], res, unres => some (.ok (res, unres))
  | d :: rest, res, unres =>
    if selfName = d then
      some (.error (.selfDep selfName))
    else
      match lookup d with
      | none => some (.error (.unresolvedDep selfName d))
      | some bd =>
        match recur bd res unres with
        | none => none
        | some (.error e) => some (.error e)
        | some (.ok (r, u)) =>
          resolveDependenciesDeps lookup recur selfName rest r u

/-- `(a *app) resolveDependencies`: the depth-first resolution of one bundle.
`unresolved` is the active DFS path (cycle detection), `resolved` the final
order being accumulated.  The Go recursion carries no fuel; here `fuel`
bounds the recursion depth and `none` marks exhaustion, proved unreachable
for `fuel = bundles.length + 1` (`rdep_isSome`). -/
def resolveDependencies (bundles : List Bundle) :
    Nat → Bundle → List String → List String →
      Option (Except GlueErr (List String × List String))
  | 0, _, _, _ => none
  | fuel + 1, b, res, unres =>
    if b.name ∈ unres then
      some (.error (.circular b.name))
    else
      match resolveDependenciesDeps (bundlesGet bundles)
          (fun bd r u => resolveDependencies bundles fuel bd r u)
          b.name (depsOf b) res (unres ++ [b.name]) with
      | none => none
      | some (.error e) => some (.error e)
      | some (.ok (r, u)) =>
        let u' := u.dropLast
        if b.name ∈ r then some (.ok (r, u'))
        else some (.ok (r ++ [b.name], u'))

/-- The outer `for _, bundle := range a.bundles` loop of `registerBundles`.
Go iterates the map in an unspecified order; the iteration order is passed
explicitly as `iter`. -/
def resolveAll (bundles : List Bundle) (fuel : Nat) :
    List Bundle → List String → List String →
      Option (Except GlueErr (List String × List String))
  | [], res, unres => some (.ok (res, unres))
  | b :: rest, res, unres =>
    match resolveDependencies bundles fuel b res unres with
    | none => none
    | some (.error e) => some (.error e)
    | some (.ok (r, u)) => resolveAll bundles fuel rest r u

/-- The resolution phase of `registerBundles`: run the resolver over every
bundle starting from empty `resolved`/`unresolved` slices and keep the
resulting order. -/
def resolveOrder (bundles iter : List Bundle) :
    Option (Except GlueErr (List String)) :=
  match resolveAll bundles (bundles.length + 1) iter [] [] with
  | none => none
  | some (.error e) => some (.error e)
  | some (.ok (r, _)) => some (.ok r)

/-- The registration phase of `registerBundles`:
`for _, name := range resolved { a.bundles[name].Build(...) }`, stopping at
the first build error.  The second component is the trace of bundles whose
`Build` step was invoked, in invocation order.  `none` models the nil-map
lookup (never reached: the resolver only emits known names). -/
def runBuilds (bundles : List Bundle) :
    List String → List String → Option (Except GlueErr Unit × List String)
  | [], trace => some (.ok (), trace)
  | n :: rest, trace =>
    match bundlesGet bundles n with
    | none => none
    | some b =>
      match b.buildErr with
      | some msg => some (.error (.buildFailed n msg), trace ++ [n])
      | none => runBuilds bundles rest (trace ++ [n])

/-- `(a *app) registerBundles`: resolve all dependencies, then invoke each
bundle's `Build` in resolved order.  On success the resolved order is
returned together with the build trace. -/
def registerBundles (bundles iter : List Bundle) :
    Option (Except GlueErr (List String) × List String) :=
  match resolveOrder bundles iter with
  | none => none
  | some (.error e) => some (.error e, [])
  | some (.ok r) =>
    match runBuilds bundles r [] with
    | none => none
    | some (.error e, tr) => some (.error e, tr)
    | some (.ok _, tr) => some (.ok r, tr)

/-- The `Bundles(bundles ...Bundle)` option: insert each bundle into the
`k.bundles` map, failing on a name that is already present.  The map is
modelled as the insertion-ordered list `acc`. -/
def bundlesOption : List Bundle → List Bundle → Except GlueErr (List Bundle)
  | [], acc => .ok acc
  | b :: rest, acc =>
    if acc.any (fun x => x.name == b.name) then
      .error (.duplicateBundle b.name)
    else
      bundlesOption rest (acc ++ [b])

/-- `NewApp` restricted to the behavior the claims are about: apply the
`Bundles` option, then `registerBundles`.  Returns the construction result
together with the trace of `Build` invocations. -/
def newApp (bundleList iter : List Bundle) :
    Option (Except GlueErr (List String) × List String) :=
  match bundlesOption bundleList [] with
  | .error e => some (.error e, [])
  | .ok bundles => registerBundles bundles iter

/-- A dependency edge between bundle names: some bundle in the set is named
`x` and declares `y` among its dependencies. -/
def hasEdge (bundles : List Bundle) (x y : String) : Prop :=
  ∃ b ∈ bundles, b.name = x ∧ y ∈ depsOf b

instance (bundles : List Bundle) (x y : String) :
    Decidable (hasEdge bundles x y) := by
  unfold hasEdge
  infer_instance

/-- A dependency chain from `x` to `z` passing through the intermediate
names `l`, every edge declared within the bundle set. -/
def chainFrom (bundles : List Bundle) : String → List String → String → Prop
  | x, [], z => hasEdge bundles x z
  | x, y :: l, z => hasEdge bundles x y ∧ chainFrom bundles y l z

instance (bundles : List Bundle) (x : String) (l : List String) (z : String) :
    Decidable (chainFrom bundles x l z) := by
  induction l generalizing x with
  | nil => unfold chainFrom; infer_instance
  | cons y l ih => unfold chainFrom; exact @instDecidableAnd _ _ _ (ih y)

/-- The ordering contract of a resolved order: every declared dependency of
every bundle already in the order is also in the order, at a strictly
smaller index. -/
def depsIndexOk (bundles : List Bundle) (r : List String) : Prop :=
  ∀ x ∈ bundles, x.name ∈ r → ∀ d ∈ depsOf x,
    d ∈ r ∧ r.indexOf d < r.indexOf x.name

/-- An error value is a genuine unresolved-dependency report: it names a
bundle of the set together with one of that bundle's declared dependencies,
and no bundle of the set carries the missing name. -/
def missingDepErr (bundles : List Bundle) (e : GlueErr) : Prop :=
  ∃ x y, e = .unresolvedDep x y ∧ ∃ bx ∈ bundles, bx.name = x
    ∧ y ∈ depsOf bx ∧ ∀ z ∈ bundles, z.name ≠ y

/-! ## Registry, context, and the version command

The v1 version command (`initContainer`, `DefCliVersion`) reads the version
from the `Registry`; the v2 version command (`initBuilder`) reads it from the
execution context (`DefContext`).  Both `Run` callbacks use cobra's
non-failing `Run` field (not `RunE`), so the sub-command always exits with
success; the models therefore capture only what is printed. -/

/-- A dynamic value stored in the registry or carried by the context.  The
core itself stores strings (`app.version`, `app.path`), command handles and
argument slices; everything non-string is collapsed to `other`, which is all
the `(string)` type assertion in the v2 version command can distinguish. -/
inductive DynVal where
  | str (s : String)
  | other
deriving DecidableEq, Repr

/-- The registry contents: the `values` map of the `registry` struct,
modelled as the list of its entries with the most recent write first. -/
def registrySet (reg : List (String × DynVal)) (k : String) (v : DynVal) :
    List (String × DynVal) :=
  (k, v) :: reg

/-- `(p *registry) Get`: the map lookup `p.values[name]`, `none` for a
missing key (Go's nil interface). -/
def registryGet (reg : List (String × DynVal)) (k : String) : Option DynVal :=
  (reg.find? (fun e => e.1 == k)).map (fun e => e.2)

/-- The v1 version command `Run`: `fmt.Println(p.Get("app.version"))`.
`fmt.Println` renders a nil interface as `<nil>`, and a stored string as the
string itself, always followed by a newline. -/
def versionCmdRunRegistry (reg : List (String × DynVal)) : String :=
  match registryGet reg "app.version" with
  | some (.str v) => v ++ "\n"
  | some .other => "<other>" ++ "\n"
  | none => "<nil>" ++ "\n"

/-- The execution context value chain: `context.WithValue` wraps the parent,
so lookup finds the most recent write first. -/
def ctxWithValue (vals : List (String × DynVal)) (k : String) (v : DynVal) :
    List (String × DynVal) :=
  (k, v) :: vals

/-- `ctx.Value(key)`: walk the context chain, most recent value first. -/
def ctxValue (vals : List (String × DynVal)) (k : String) : Option DynVal :=
  (vals.find? (fun e => e.1 == k)).map (fun e => e.2)

/-- The v2 version command `Run`:
`if v, ok := ctx.Value("app.version").(string); ok { fmt.Println(v) }` —
prints the version followed by a newline when the context carries a string
under `app.version`, and prints nothing otherwise. -/
def versionCmdRunContext (vals : List (String × DynVal)) : String :=
  match ctxValue vals "app.version" with
  | some (.str v) => v ++ "\n"
  | _ => ""

/-! ## The `Execute` lifecycle -/

/-- The outcomes of the external steps of one `Execute` call, in program
order: `filepath.Abs(filepath.Dir(os.Args[0]))`, `container.Fill(DefCliRoot,
&root)`, `root.Execute()`, and `container.Delete()`. -/
structure ExecuteEnv where
  appPathRes : Except String String
  fillRes : Except String Unit
  rootRes : Except String Unit
  deleteRes : Except String Unit
deriving Repr

/-- What one `Execute` call produced: the returned error value, and whether
`container.Delete()` was invoked. -/
structure ExecuteOutcome where
  result : Except String Unit
  deleteAttempted : Bool
deriving Repr

/-- `(a *app) Execute` (context-based version): resolve the app path
(failure aborts before the container is built); build the container with a
deferred teardown; fill the root command and run it.  The deferred closure
reads the named result `err`: when it is non-nil the `Delete` error is
discarded (`_ = container.Delete()`), otherwise `err = container.Delete()`.
The registry-based `Execute` has the identical teardown structure. -/
def executeModel (env : ExecuteEnv) : ExecuteOutcome :=
  match env.appPathRes with
  | .error e => { result := .error e, deleteAttempted := false }
  | .ok _ =>
    let err1 : Except String Unit :=
      match env.fillRes with
      | .error e => .error e
      | .ok _ => env.rootRes
    match err1 with
    | .error e => { result := .error e, deleteAttempted := true }
    | .ok _ => { result := env.deleteRes, deleteAttempted := true }

/-- The execution context as far as cancellation is observable: the value
chain and whether the context (or an ancestor) has been canceled.  A
`context.WithCancel` child of an already-canceled parent is canceled from
the start. -/
structure CtxState where
  vals : List (String × DynVal)
  canceled : Bool
deriving DecidableEq, Repr

/-- The context manipulation performed by one `Execute` call
(context-based version):

* `a.withCancel()` runs `a.ctx, fn = context.WithCancel(a.ctx)` — the child
  is stored back into `a.ctx` and inherits the parent's cancellation state;
* `a.withValue("app.path", appPath)` wraps `a.ctx` once more;
* the deferred `cancelFunc()` at the end of `Execute` cancels the child
  created above, and `a.ctx` still points into that chain.

Returns the app's context after the call and whether the execution context
was already canceled when the root command started running. -/
def executeCtxOnce (ctx0 : CtxState) (appPath : String) : CtxState × Bool :=
  let ctx1 : CtxState := { vals := ctx0.vals, canceled := ctx0.canceled }
  let ctx2 : CtxState :=
    { ctx1 with vals := ctxWithValue ctx1.vals "app.path" (.str appPath) }
  ({ ctx2 with canceled := true }, ctx2.canceled)

/-! ## `Registry.Fill` -/

/-- The dynamic (reflection-level) type of a stored value. -/
inductive GoTy where
  | strTy
  | otherTy
deriving DecidableEq, Repr

/-- The dynamic type of a registry value, `none` for the nil interface. -/
def dynTy : Option DynVal → Option GoTy
  | some (.str _) => some .strTy
  | some .other => some .otherTy
  | none => none

/-- The `target interface{}` argument of `Fill` as reflection sees it:
either a non-nil pointer to a value of some concrete type, or anything else
(nil, a non-pointer, an untyped nil pointer), on which
`reflect.ValueOf(target).Elem().Set` panics. -/
inductive FillTarget where
  | ptr (t : GoTy)
  | invalid
deriving DecidableEq, Repr

/-- Render a dynamic type the way the recovered error message does. -/
def tyName : Option GoTy → String
  | some .strTy => "string"
  | some .otherTy => "interface"
  | none => "<nil>"

/-- The message built in the deferred `recover` block of `Fill`. -/
def fillMismatchMsg (target : FillTarget) (srcTy : Option GoTy) : String :=
  let tname := match target with
    | .ptr t => "*" ++ tyName (some t)
    | .invalid => "<invalid>"
  "target is " ++ tname ++ " but should be a pointer to the source type "
    ++ tyName srcTy

/-- `(p *registry) Fill`: look the value up with `Get`, then
`reflect.ValueOf(target).Elem().Set(reflect.ValueOf(src))`.  The `Set`
panics — recovered into the type-mismatch error — whenever the target is not
a valid pointer, or the source is nil (`Set` of the zero `Value`), or the
pointee type differs from the source's dynamic type.  On success the
target's pointee becomes the stored value, returned here as the `.ok`
payload. -/
def registryFill (reg : List (String × DynVal)) (name : String)
    (target : FillTarget) : Except String DynVal :=
  let src := registryGet reg name
  match target, src with
  | .ptr t, some v =>
    if dynTy (some v) = some t then .ok v
    else .error (fillMismatchMsg target (dynTy src))
  | .ptr _, none => .error (fillMismatchMsg target (dynTy src))
  | .invalid, _ => .error (fillMismatchMsg target (dynTy src))

/-! ## Persistent pre-run hooks -/

/-- Modelled from the spec: the root-command factory of the design that
consumes the `cli.persistent_prerunner` tag (the tag and its
`AsPersistentPreRunner` helper are declared in `di.go`, but the factory
collecting it is not among the sources) "collects every definition tagged as
a persistent pre-run hook and composes them into a single pre-run step that
executes them in registration order, short-circuiting and propagating the
first failure".  Each hook is a named outcome; the composed step returns the
overall result and the trace of hooks that were executed, in order. -/
def composePersistentPreRunners :
    List (String × Except String Unit) → Except String Unit × List String
  | [] => (.ok (), [])
  | (n, r) :: rest =>
    match r with
    | .error e => (.error e, [n])
    | .ok _ =>
      let tail := composePersistentPreRunners rest
      (tail.1, n :: tail.2)

/-! ## Helper lemmas for the option layer -/

/-- If the map already seen (`acc`) has pairwise-distinct names and the
combined name list has a repetition, the `Bundles` option reports a
duplicate-bundle error. -/
theorem bundlesOption_error_of_dup (bs : List Bundle) :
    ∀ acc : List Bundle, (acc.map Bundle.name).Nodup →
      ¬ ((acc ++ bs).map Bundle.name).Nodup →
      ∃ n, bundlesOption bs acc = .error (.duplicateBundle n) := by
  induction bs with
  | nil =>
    intro acc hacc hdup
    exact absurd (by simpa using hacc) hdup
  | cons b rest ih =>
    intro acc hacc hdup
    by_cases hmem : acc.any (fun x => x.name == b.name)
    · exact ⟨b.name, by simp [bundlesOption, hmem]⟩
    · have hnotin : b.name ∉ acc.map Bundle.name := by
        simp only [List.any_eq_true, beq_iff_eq] at hmem
        simp only [List.mem_map]
        rintro ⟨x, hx, hxe⟩
        exact hmem ⟨x, hx, hxe⟩
      have hacc' : ((acc ++ [b]).map Bundle.name).Nodup := by
        simp only [List.map_append, List.map_cons, List.map_nil]
        exact List.Nodup.append hacc (List.nodup_singleton _)
          (by simpa using fun h => hnotin h)
      have hdup' : ¬ (((acc ++ [b]) ++ rest).map Bundle.name).Nodup := by
        simpa [List.append_assoc] using hdup
      obtain ⟨n, hn⟩ := ih (acc ++ [b]) hacc' hdup'
      exact ⟨n, by simpa [bundlesOption, hmem] using hn⟩

/-- When every name is distinct the `Bundles` option succeeds and the
resulting bundle map holds exactly the supplied bundles, in order. -/
theorem bundlesOption_ok_of_nodup (bs : List Bundle) :
    ∀ acc : List Bundle, ((acc ++ bs).map Bundle.name).Nodup →
      bundlesOption bs acc = .ok (acc ++ bs) := by
  induction bs with
  | nil => intro acc _; simp [bundlesOption]
  | cons b rest ih =>
    intro acc hnd
    have hnotin : ¬ acc.any (fun x => x.name == b.name) := by
      simp only [List.any_eq_true, beq_iff_eq]
      rintro ⟨x, hx, hxe⟩
      have : x.name ∈ (acc.map Bundle.name) := List.mem_map_of_mem _ hx
      have hbmem : b.name ∈ (acc.map Bundle.name) := hxe ▸ this
      have := (List.nodup_append.mp (by simpa [List.map_append] using hnd)).2.2
      exact this hbmem (by simp)
    have := ih (acc ++ [b]) (by simpa [List.append_assoc] using hnd)
    simpa [bundlesOption, hnotin, List.append_assoc] using this

/-! ## Claims C4 to C9 -/

/-- C4: a bundle list containing two bundles with the same name makes
`NewApp` fail with the duplicate-bundle error from the `Bundles` option, and
no bundle's `Build` step is ever invoked (the build trace is empty):
registration only happens in `registerBundles`, which is never reached. -/
theorem claim_c4_duplicate_name (bundleList iter : List Bundle)
    (hdup : ¬ (bundleList.map Bundle.name).Nodup) :
    ∃ n, newApp bundleList iter = some (.error (.duplicateBundle n), []) := by
  obtain ⟨n, hn⟩ := bundlesOption_error_of_dup bundleList [] (by simp)
    (by simpa using hdup)
  exact ⟨n, by simp [newApp, hn]⟩

/-- C4 witness: two bundles both named `a`. -/
theorem claim_c4_witness :
    ∃ n, newApp [⟨"a", none, none⟩, ⟨"a", none, none⟩]
        [⟨"a", none, none⟩, ⟨"a", none, none⟩]
      = some (.error (.duplicateBundle n), []) :=
  claim_c4_duplicate_name _ _ (by decide)

/-- C5 counterexample: with no version configured, the registry-based
version command (`initContainer`) prints the line `<nil>` — Go's
`fmt.Println` rendering of the nil interface returned by
`p.Get("app.version")` — rather than printing nothing as claimed. -/
theorem claim_c5_counterexample :
    versionCmdRunRegistry [] = "<nil>" ++ "\n"
      ∧ versionCmdRunRegistry [] ≠ "" := by
  constructor
  · rfl
  · decide

/-- C5 (amended): with version `1.2.3` configured, both version commands
print the line `1.2.3`; with no version configured the context-based
command (`initBuilder`) prints nothing while the registry-based one
(`initContainer`) prints the placeholder line `<nil>`.  Both `Run`
callbacks are cobra `Run` fields without an error return, so the
sub-command exits successfully in every case. -/
theorem claim_c5_version_command :
    versionCmdRunRegistry (registrySet [] "app.version" (.str "1.2.3"))
        = "1.2.3" ++ "\n"
      ∧ versionCmdRunContext (ctxWithValue [] "app.version" (.str "1.2.3"))
        = "1.2.3" ++ "\n"
      ∧ versionCmdRunContext [] = ""
      ∧ versionCmdRunRegistry [] = "<nil>" ++ "\n" := by
  refine ⟨rfl, rfl, rfl, rfl⟩

/-- C6: the composed persistent pre-run step executes the tagged hooks in
registration order and short-circuits at the first failure: either every
hook succeeds, the composed step succeeds and the execution trace lists all
hooks in registration order, or the hook list splits around a first failing
hook, the composed step propagates exactly that failure, and the trace
lists the preceding (all successful) hooks followed by the failing one. -/
theorem claim_c6_prerun_composition
    (hooks : List (String × Except String Unit)) :
    ((∀ p ∈ hooks, p.2 = .ok ())
        ∧ (composePersistentPreRunners hooks).1 = .ok ()
        ∧ (composePersistentPreRunners hooks).2 = hooks.map Prod.fst)
    ∨ (∃ pre n e post, hooks = pre ++ (n, Except.error e) :: post
        ∧ (∀ p ∈ pre, p.2 = .ok ())
        ∧ (composePersistentPreRunners hooks).1 = .error e
        ∧ (composePersistentPreRunners hooks).2 = pre.map Prod.fst ++ [n]) := by
  induction hooks with
  | nil => exact .inl ⟨by simp, rfl, rfl⟩
  | cons p rest ih =>
    obtain ⟨n, r⟩ := p
    match r with
    | .error e =>
      refine .inr ⟨[], n, e, rest, by simp, by simp, ?_, ?_⟩
      · simp [composePersistentPreRunners]
      · simp [composePersistentPreRunners]
    | .ok u =>
      cases u
      rcases ih with ⟨hall, hres, htr⟩ | ⟨pre, m, e, post, heq, hpre, hres, htr⟩
      · refine .inl ⟨?_, ?_, ?_⟩
        · intro q hq
          rcases List.mem_cons.mp hq with h | h
          · rw [h]
          · exact hall q h
        · simpa [composePersistentPreRunners] using hres
        · simp [composePersistentPreRunners, htr]
      · refine .inr ⟨(n, .ok ()) :: pre, m, e, post, by simp [heq], ?_, ?_, ?_⟩
        · intro q hq
          rcases List.mem_cons.mp hq with h | h
          · rw [h]
          · exact hpre q h
        · simpa [composePersistentPreRunners] using hres
        · simp [composePersistentPreRunners, htr]

/-- C6 witness: three registered hooks of which the second fails — the
composed step propagates that failure and the trace stops there. -/
theorem claim_c6_witness :
    ((∀ p ∈ [("a", Except.ok ()), ("b", Except.error "boom"),
          ("c", (Except.ok () : Except String Unit))], p.2 = .ok ())
        ∧ (composePersistentPreRunners
            [("a", .ok ()), ("b", .error "boom"), ("c", .ok ())]).1 = .ok ()
        ∧ (composePersistentPreRunners
            [("a", .ok ()), ("b", .error "boom"), ("c", .ok ())]).2
          = [("a", Except.ok ()), ("b", Except.error "boom"),
              ("c", (Except.ok () : Except String Unit))].map Prod.fst)
    ∨ (∃ pre n e post,
        [("a", Except.ok ()), ("b", Except.error "boom"),
            ("c", (Except.ok () : Except String Unit))]
          = pre ++ (n, Except.error e) :: post
        ∧ (∀ p ∈ pre, p.2 = .ok ())
        ∧ (composePersistentPreRunners
            [("a", .ok ()), ("b", .error "boom"), ("c", .ok ())]).1 = .error e
        ∧ (composePersistentPreRunners
            [("a", .ok ()), ("b", .error "boom"), ("c", .ok ())]).2
          = pre.map Prod.fst ++ [n]) :=
  claim_c6_prerun_composition _

/-- C7: once the app path resolved (so the container is built), teardown is
attempted on every exit path of `Execute`; when fill and root execution
succeed, `Execute` returns whatever `container.Delete()` returns; when root
execution (or the root fill) fails, `Execute` returns that original error
and the secondary `Delete` error is discarded. -/
theorem claim_c7_execute_teardown (p e m : String)
    (fr rr dr : Except String Unit) :
    (executeModel ⟨.ok p, fr, rr, dr⟩).deleteAttempted = true
      ∧ (executeModel ⟨.ok p, .ok (), .ok (), dr⟩).result = dr
      ∧ (executeModel ⟨.ok p, .ok (), .error e, dr⟩).result = .error e
      ∧ (executeModel ⟨.ok p, .error m, rr, dr⟩).result = .error m := by
  refine ⟨?_, ?_, rfl, rfl⟩
  · cases fr with
    | error e' => rfl
    | ok u => cases u; cases rr with
      | error e' => rfl
      | ok u' => rfl
  · rfl

/-- C7 witness: concrete outcomes for each scenario. -/
theorem claim_c7_witness :
    (executeModel ⟨.ok "/app", .ok (), .ok (), .error "close"⟩).deleteAttempted
        = true
      ∧ (executeModel ⟨.ok "/app", .ok (), .ok (), .error "close"⟩).result
        = .error "close"
      ∧ (executeModel ⟨.ok "/app", .ok (), .error "boom",
          .error "close"⟩).result = .error "boom"
      ∧ (executeModel ⟨.ok "/app", .error "fill", .ok (),
          .error "close"⟩).result = .error "fill" := by
  have h := claim_c7_execute_teardown "/app" "boom" "fill"
    (.ok ()) (.ok ()) (.error "close")
  exact ⟨h.1, h.2.1, h.2.2.1, h.2.2.2⟩

/-- C8: evidence for the context-reuse bug.  Starting from the background
base context, the first `Execute` call's execution context is not canceled
at its start; but because `withCancel` stores the derived (and eventually
canceled) child back into `a.ctx`, a second `Execute` call on the same
application derives its context from the first call's canceled context and
is therefore already canceled when its root command starts running —
contradicting the claim that an execution context is never reused across
two `Execute` calls. -/
theorem claim_c8_context_reuse :
    (executeCtxOnce ⟨[], false⟩ "/app").2 = false
      ∧ (executeCtxOnce (executeCtxOnce ⟨[], false⟩ "/app").1 "/app").2
        = true := by
  exact ⟨rfl, rfl⟩

/-- C9: `Registry.Fill` never lets the reflection fault escape: for every
registry, name and target it either succeeds — which happens exactly when a
value is stored under the name and the target is a non-nil pointer whose
pointee type is the stored value's dynamic type, and then the target's
pointee is set to the stored value (the `.ok` payload) — or it returns the
descriptive type-mismatch error built in the recover block. -/
theorem claim_c9_fill_total (reg : List (String × DynVal)) (name : String)
    (target : FillTarget) :
    (∃ v t, registryGet reg name = some v ∧ dynTy (some v) = some t
        ∧ target = .ptr t ∧ registryFill reg name target = .ok v)
    ∨ registryFill reg name target
        = .error (fillMismatchMsg target (dynTy (registryGet reg name))) := by
  cases htarget : target with
  | invalid =>
    right
    simp [registryFill]
  | ptr t =>
    cases hsrc : registryGet reg name with
    | none =>
      right
      simp [registryFill, hsrc]
    | some v =>
      by_cases hty : dynTy (some v) = some t
      · exact .inl ⟨v, t, rfl, hty, rfl, by simp [registryFill, hsrc, hty]⟩
      · right
        simp [registryFill, hsrc, hty]

/-- C9 witness: a stored string filled into a string pointer succeeds with
the stored value; an integer-typed... (non-string) target errors. -/
theorem claim_c9_witness :
    (∃ v t, registryGet [("app.version", DynVal.str "1.2.3")] "app.version"
          = some v
        ∧ dynTy (some v) = some t ∧ FillTarget.ptr GoTy.strTy = .ptr t
        ∧ registryFill [("app.version", DynVal.str "1.2.3")] "app.version"
            (.ptr .strTy) = .ok v)
    ∨ registryFill [("app.version", DynVal.str "1.2.3")] "app.version"
          (.ptr .strTy)
        = .error (fillMismatchMsg (.ptr .strTy)
            (dynTy (registryGet [("app.version", DynVal.str "1.2.3")]
              "app.version"))) :=
  claim_c9_fill_total _ _ _

/-! ## Resolver lemmas -/

/-- A successful map lookup returns a member carrying the looked-up name. -/
theorem bundlesGet_mem {bundles : List Bundle} {d : String} {bd : Bundle}
    (h : bundlesGet bundles d = some bd) : bd ∈ bundles ∧ bd.name = d := by
  refine ⟨List.mem_of_find?_eq_some h, ?_⟩
  have := List.find?_some h
  simpa [beq_iff_eq] using this

/-- A name carried by some member of the map can be looked up. -/
theorem bundlesGet_of_exists {bundles : List Bundle} {d : String}
    (h : ∃ y ∈ bundles, y.name = d) :
    ∃ bd, bundlesGet bundles d = some bd ∧ bd ∈ bundles ∧ bd.name = d := by
  obtain ⟨y, hy, hyd⟩ := h
  have hs : (bundlesGet bundles d).isSome :=
    List.find?_isSome.mpr ⟨y, hy, by simp [hyd]⟩
  obtain ⟨bd, hbd⟩ := Option.isSome_iff_exists.mp hs
  exact ⟨bd, hbd, bundlesGet_mem hbd⟩

/-- A failed map lookup means no member carries the name. -/
theorem bundlesGet_none {bundles : List Bundle} {d : String}
    (h : bundlesGet bundles d = none) : ∀ z ∈ bundles, z.name ≠ d := by
  intro z hz
  have := List.find?_eq_none.mp h z hz
  simpa [beq_iff_eq] using this

/-- A duplicate-free list of bundle names is no longer than the bundle
list itself — the bound behind the resolver's recursion depth. -/
theorem nodup_names_length_le (bundles : List Bundle) (l : List String)
    (hnd : l.Nodup) (hsub : ∀ n ∈ l, ∃ x ∈ bundles, x.name = n) :
    l.length ≤ bundles.length := by
  have h1 : l.toFinset ⊆ (bundles.map Bundle.name).toFinset := by
    intro n hn
    rw [List.mem_toFinset] at hn ⊢
    obtain ⟨x, hx, hxe⟩ := hsub n hn
    exact hxe ▸ List.mem_map_of_mem _ hx
  calc l.length = l.toFinset.card := (List.toFinset_card_of_nodup hnd).symm
    _ ≤ (bundles.map Bundle.name).toFinset.card := Finset.card_le_card h1
    _ ≤ (bundles.map Bundle.name).length := List.toFinset_card_le _
    _ = bundles.length := List.length_map _ _

/-- The dependency loop hands the `unresolved` slice back unchanged on
success, provided each recursive call does. -/
theorem rdeps_unres_eq (bundles : List Bundle)
    (recur : Bundle → List String → List String →
      Option (Except GlueErr (List String × List String)))
    (selfName : String)
    (hrec : ∀ bd r₀ u₀ r' u',
      recur bd r₀ u₀ = some (.ok (r', u')) → u' = u₀) :
    ∀ deps res unres r u,
      resolveDependenciesDeps (bundlesGet bundles) recur selfName deps res
          unres = some (.ok (r, u)) → u = unres := by
  intro deps
  induction deps with
  | nil =>
    intro res unres r u h
    simp only [resolveDependenciesDeps, Option.some.injEq, Except.ok.injEq,
      Prod.mk.injEq] at h
    exact h.2.symm
  | cons d rest ih =>
    intro res unres r u h
    simp only [resolveDependenciesDeps] at h
    by_cases hsd : selfName = d
    · simp [hsd] at h
    · rw [if_neg hsd] at h
      cases hl : bundlesGet bundles d with
      | none => rw [hl] at h; simp at h
      | some bd =>
        rw [hl] at h
        dsimp only at h
        cases hr : recur bd res unres with
        | none => rw [hr] at h; simp at h
        | some v =>
          rw [hr] at h
          match v with
          | .error e => simp at h
          | .ok (r1, u1) =>
            have h1 := ih r1 u1 r u h
            exact h1.trans (hrec bd res unres r1 u1 hr)

/-- `resolveDependencies` pops exactly what it pushed: on success the
`unresolved` slice equals its value on entry. -/
theorem rdep_unres_eq (bundles : List Bundle) :
    ∀ fuel b res unres r u,
      resolveDependencies bundles fuel b res unres = some (.ok (r, u)) →
        u = unres := by
  intro fuel
  induction fuel with
  | zero => intro b res unres r u h; simp [resolveDependencies] at h
  | succ f ih =>
    intro b res unres r u h
    simp only [resolveDependencies] at h
    by_cases hmem : b.name ∈ unres
    · simp [hmem] at h
    · rw [if_neg hmem] at h
      cases hR : resolveDependenciesDeps (bundlesGet bundles)
          (fun bd r u => resolveDependencies bundles f bd r u) b.name
          (depsOf b) res (unres ++ [b.name]) with
      | none => rw [hR] at h; simp at h
      | some v =>
        rw [hR] at h
        match v with
        | .error e => simp at h
        | .ok (r2, u2) =>
          dsimp only at h
          have hu2 : u2 = unres ++ [b.name] :=
            rdeps_unres_eq bundles _ b.name
              (fun bd r₀ u₀ r' u' hh => ih bd r₀ u₀ r' u' hh)
              (depsOf b) res (unres ++ [b.name]) r2 u2 hR
          by_cases hbr : b.name ∈ r2
          · rw [if_pos hbr] at h
            simp only [Option.some.injEq, Except.ok.injEq,
              Prod.mk.injEq] at h
            rw [← h.2, hu2, List.dropLast_concat]
          · rw [if_neg hbr] at h
            simp only [Option.some.injEq, Except.ok.injEq,
              Prod.mk.injEq] at h
            rw [← h.2, hu2, List.dropLast_concat]

/-- Basic invariants of the dependency loop: the `resolved` slice only
grows, every appended name belongs to a bundle of the set, and freedom from
duplicates is preserved — provided each recursive call guarantees the same
(plus membership of its own bundle's name in its result). -/
theorem rdeps_basic (bundles : List Bundle)
    (recur : Bundle → List String → List String →
      Option (Except GlueErr (List String × List String)))
    (selfName : String)
    (hrec : ∀ bd r₀ u₀ r' u', bd ∈ bundles →
      recur bd r₀ u₀ = some (.ok (r', u')) →
        (∃ t, r' = r₀ ++ t ∧ ∀ n ∈ t, ∃ x ∈ bundles, x.name = n)
          ∧ bd.name ∈ r' ∧ (r₀.Nodup → r'.Nodup)) :
    ∀ deps res unres r u,
      resolveDependenciesDeps (bundlesGet bundles) recur selfName deps res
          unres = some (.ok (r, u)) →
        (∃ t, r = res ++ t ∧ ∀ n ∈ t, ∃ x ∈ bundles, x.name = n)
          ∧ (res.Nodup → r.Nodup) := by
  intro deps
  induction deps with
  | nil =>
    intro res unres r u h
    simp only [resolveDependenciesDeps, Option.some.injEq, Except.ok.injEq,
      Prod.mk.injEq] at h
    obtain ⟨h1, _⟩ := h
    subst h1
    exact ⟨⟨[], by simp, by simp⟩, id⟩
  | cons d rest ih =>
    intro res unres r u h
    simp only [resolveDependenciesDeps] at h
    by_cases hsd : selfName = d
    · simp [hsd] at h
    · rw [if_neg hsd] at h
      cases hl : bundlesGet bundles d with
      | none => rw [hl] at h; simp at h
      | some bd =>
        rw [hl] at h
        dsimp only at h
        cases hr : recur bd res unres with
        | none => rw [hr] at h; simp at h
        | some v =>
          rw [hr] at h
          match v with
          | .error e => simp at h
          | .ok (r1, u1) =>
            obtain ⟨hbd, hbdn⟩ := bundlesGet_mem hl
            obtain ⟨⟨t1, ht1, ht1n⟩, _, hnd1⟩ := hrec bd res unres r1 u1 hbd hr
            obtain ⟨⟨t2, ht2, ht2n⟩, hnd2⟩ := ih r1 u1 r u h
            refine ⟨⟨t1 ++ t2, ?_, ?_⟩, ?_⟩
            · rw [ht2, ht1, List.append_assoc]
            · intro n hn
              rcases List.mem_append.mp hn with hn | hn
              · exact ht1n n hn
              · exact ht2n n hn
            · intro hres
              exact hnd2 (hnd1 hres)

/-- Basic invariants of `resolveDependencies`: the `resolved` slice only
grows and stays duplicate-free, every appended name is a bundle name of the
set, and on success the resolved bundle's own name is in the result. -/
theorem rdep_basic (bundles : List Bundle) :
    ∀ fuel b res unres r u, b ∈ bundles →
      resolveDependencies bundles fuel b res unres = some (.ok (r, u)) →
        (∃ t, r = res ++ t ∧ ∀ n ∈ t, ∃ x ∈ bundles, x.name = n)
          ∧ b.name ∈ r ∧ (res.Nodup → r.Nodup) := by
  intro fuel
  induction fuel with
  | zero => intro b res unres r u _ h; simp [resolveDependencies] at h
  | succ f ih =>
    intro b res unres r u hb h
    simp only [resolveDependencies] at h
    by_cases hmem : b.name ∈ unres
    · simp [hmem] at h
    · rw [if_neg hmem] at h
      cases hR : resolveDependenciesDeps (bundlesGet bundles)
          (fun bd r u => resolveDependencies bundles f bd r u) b.name
          (depsOf b) res (unres ++ [b.name]) with
      | none => rw [hR] at h; simp at h
      | some v =>
        rw [hR] at h
        match v with
        | .error e => simp at h
        | .ok (r2, u2) =>
          dsimp only at h
          obtain ⟨⟨t, ht, htn⟩, hnd⟩ := rdeps_basic bundles _ b.name
            (fun bd r₀ u₀ r' u' hbd hh => ih bd r₀ u₀ r' u' hbd hh)
            (depsOf b) res (unres ++ [b.name]) r2 u2 hR
          by_cases hbr : b.name ∈ r2
          · rw [if_pos hbr] at h
            simp only [Option.some.injEq, Except.ok.injEq,
              Prod.mk.injEq] at h
            obtain ⟨h1, _⟩ := h
            subst h1
            exact ⟨⟨t, ht, htn⟩, hbr, hnd⟩
          · rw [if_neg hbr] at h
            simp only [Option.some.injEq, Except.ok.injEq,
              Prod.mk.injEq] at h
            obtain ⟨h1, _⟩ := h
            subst h1
            refine ⟨⟨t ++ [b.name], ?_, ?_⟩, ?_, ?_⟩
            · rw [ht, List.append_assoc]
            · intro n hn
              rcases List.mem_append.mp hn with hn | hn
              · exact htn n hn
              · obtain rfl := List.mem_singleton.mp hn
                exact ⟨b, hb, rfl⟩
            · exact List.mem_append.mpr (Or.inr (by simp))
            · intro hres
              refine List.nodup_append.mpr
                ⟨hnd hres, List.nodup_singleton _, ?_⟩
              intro a ha hamem
              obtain rfl := List.mem_singleton.mp hamem
              exact hbr ha

/-- On a successful pass over a dependency list, every dependency passed the
self-check, was found in the map, and was itself resolved successfully with
the same `unresolved` path. -/
theorem rdeps_ok_forall (bundles : List Bundle)
    (recur : Bundle → List String → List String →
      Option (Except GlueErr (List String × List String)))
    (selfName : String)
    (hrec : ∀ bd r₀ u₀ r' u',
      recur bd r₀ u₀ = some (.ok (r', u')) → u' = u₀) :
    ∀ deps res unres r u,
      resolveDependenciesDeps (bundlesGet bundles) recur selfName deps res
          unres = some (.ok (r, u)) →
        ∀ d ∈ deps, selfName ≠ d ∧ ∃ bd, bundlesGet bundles d = some bd ∧
          ∃ r₀ r₁, recur bd r₀ unres = some (.ok (r₁, unres)) := by
  intro deps
  induction deps with
  | nil => intro res unres r u _ d hd; simp at hd
  | cons d0 rest ih =>
    intro res unres r u h d hd
    simp only [resolveDependenciesDeps] at h
    by_cases hsd : selfName = d0
    · simp [hsd] at h
    · rw [if_neg hsd] at h
      cases hl : bundlesGet bundles d0 with
      | none => rw [hl] at h; simp at h
      | some bd =>
        rw [hl] at h
        dsimp only at h
        cases hr : recur bd res unres with
        | none => rw [hr] at h; simp at h
        | some v =>
          rw [hr] at h
          match v with
          | .error e => simp at h
          | .ok (r1, u1) =>
            have hu1 : u1 = unres := hrec bd res unres r1 u1 hr
            rw [hu1] at h hr
            rcases List.mem_cons.mp hd with rfl | hd'
            · exact ⟨hsd, bd, hl, res, r1, hr⟩
            · exact ih r1 unres r u h d hd'

/-- A bundle whose name is already on the active DFS path can only produce
the circular-dependency error, never a success. -/
theorem rdep_mem_not_ok (bundles : List Bundle) (fuel : Nat) (b : Bundle)
    (res unres : List String) (hmem : b.name ∈ unres) :
    ∀ r u, resolveDependencies bundles fuel b res unres
      ≠ some (.ok (r, u)) := by
  intro r u h
  cases fuel with
  | zero => simp [resolveDependencies] at h
  | succ f => simp [resolveDependencies, hmem] at h

/-- With duplicate-free names, bundles are determined by their name. -/
theorem bundle_name_inj {bundles : List Bundle}
    (hnames : (bundles.map Bundle.name).Nodup) {x y : Bundle}
    (hx : x ∈ bundles) (hy : y ∈ bundles) (hxy : x.name = y.name) : x = y :=
  List.inj_on_of_nodup_map hnames hx hy hxy

/-- With duplicate-free names, an edge leaving `x` is declared by the (one)
bundle named `x`. -/
theorem hasEdge_deps {bundles : List Bundle}
    (hnames : (bundles.map Bundle.name).Nodup) {x y : String}
    (h : hasEdge bundles x y) {bx : Bundle} (hbx : bx ∈ bundles)
    (hbxn : bx.name = x) : y ∈ depsOf bx := by
  obtain ⟨b, hb, hbn, hy⟩ := h
  have hbbx : b = bx := bundle_name_inj hnames hb hbx (by rw [hbn, hbxn])
  exact hbbx ▸ hy

/-- If a dependency chain leads from the bundle being resolved back to a
name already on the active DFS path, resolution cannot succeed: the cycle
check fires somewhere below. -/
theorem rdep_chain_not_ok (bundles : List Bundle)
    (hnames : (bundles.map Bundle.name).Nodup) :
    ∀ (l : List String) (fuel : Nat) (x y : String) (bx : Bundle)
      (res unres r u : List String), bx ∈ bundles → bx.name = x →
      chainFrom bundles x l y → y ∈ unres →
      resolveDependencies bundles fuel bx res unres ≠ some (.ok (r, u)) := by
  intro l
  induction l with
  | nil =>
    intro fuel x y bx res unres r u hbx hbxn hchain hyu h
    simp only [chainFrom] at hchain
    cases fuel with
    | zero => simp [resolveDependencies] at h
    | succ f =>
      simp only [resolveDependencies] at h
      by_cases hmem : bx.name ∈ unres
      · simp [hmem] at h
      · rw [if_neg hmem] at h
        cases hR : resolveDependenciesDeps (bundlesGet bundles)
            (fun bd r u => resolveDependencies bundles f bd r u) bx.name
            (depsOf bx) res (unres ++ [bx.name]) with
        | none => rw [hR] at h; simp at h
        | some v =>
          rw [hR] at h
          match v with
          | .error e => simp at h
          | .ok (r2, u2) =>
            have hy' : y ∈ depsOf bx := hasEdge_deps hnames hchain hbx hbxn
            obtain ⟨hne, bd, hbd, r₀, r₁, hrec⟩ :=
              rdeps_ok_forall bundles _ bx.name
                (fun bd r₀ u₀ r' u' hh =>
                  rdep_unres_eq bundles f bd r₀ u₀ r' u' hh)
                (depsOf bx) res (unres ++ [bx.name]) r2 u2 hR y hy'
            obtain ⟨hbdmem, hbdn⟩ := bundlesGet_mem hbd
            exact rdep_mem_not_ok bundles f bd r₀ (unres ++ [bx.name])
              (by rw [hbdn]; exact List.mem_append.mpr (Or.inl hyu))
              r₁ _ hrec
  | cons y1 l' ihl =>
    intro fuel x y bx res unres r u hbx hbxn hchain hyu h
    simp only [chainFrom] at hchain
    obtain ⟨hedge, hch⟩ := hchain
    cases fuel with
    | zero => simp [resolveDependencies] at h
    | succ f =>
      simp only [resolveDependencies] at h
      by_cases hmem : bx.name ∈ unres
      · simp [hmem] at h
      · rw [if_neg hmem] at h
        cases hR : resolveDependenciesDeps (bundlesGet bundles)
            (fun bd r u => resolveDependencies bundles f bd r u) bx.name
            (depsOf bx) res (unres ++ [bx.name]) with
        | none => rw [hR] at h; simp at h
        | some v =>
          rw [hR] at h
          match v with
          | .error e => simp at h
          | .ok (r2, u2) =>
            have hy1 : y1 ∈ depsOf bx := hasEdge_deps hnames hedge hbx hbxn
            obtain ⟨hne, bd, hbd, r₀, r₁, hrec⟩ :=
              rdeps_ok_forall bundles _ bx.name
                (fun bd r₀ u₀ r' u' hh =>
                  rdep_unres_eq bundles f bd r₀ u₀ r' u' hh)
                (depsOf bx) res (unres ++ [bx.name]) r2 u2 hR y1 hy1
            obtain ⟨hbdmem, hbdn⟩ := bundlesGet_mem hbd
            exact ihl f y1 y bd r₀ (unres ++ [bx.name]) r₁ _ hbdmem hbdn hch
              (List.mem_append.mpr (Or.inl hyu)) hrec

/-- Resolving a bundle that lies on a dependency cycle never succeeds,
whatever the incoming resolver state. -/
theorem rdep_cycle_not_ok (bundles : List Bundle)
    (hnames : (bundles.map Bundle.name).Nodup) (n : String)
    (l : List String) (hchain : chainFrom bundles n l n) :
    ∀ (fuel : Nat) (bn : Bundle) (res unres r u : List String),
      bn ∈ bundles → bn.name = n →
      resolveDependencies bundles fuel bn res unres ≠ some (.ok (r, u)) := by
  intro fuel bn res unres r u hbn hbnn h
  by_cases hmem : bn.name ∈ unres
  · exact rdep_mem_not_ok bundles fuel bn res unres hmem r u h
  · cases fuel with
    | zero => simp [resolveDependencies] at h
    | succ f =>
      simp only [resolveDependencies] at h
      rw [if_neg hmem] at h
      cases hR : resolveDependenciesDeps (bundlesGet bundles)
          (fun bd r u => resolveDependencies bundles f bd r u) bn.name
          (depsOf bn) res (unres ++ [bn.name]) with
      | none => rw [hR] at h; simp at h
      | some v =>
        rw [hR] at h
        match v with
        | .error e => simp at h
        | .ok (r2, u2) =>
          cases l with
          | nil =>
            simp only [chainFrom] at hchain
            have hdep : n ∈ depsOf bn := hasEdge_deps hnames hchain hbn hbnn
            obtain ⟨hne, -⟩ :=
              rdeps_ok_forall bundles _ bn.name
                (fun bd r₀ u₀ r' u' hh =>
                  rdep_unres_eq bundles f bd r₀ u₀ r' u' hh)
                (depsOf bn) res (unres ++ [bn.name]) r2 u2 hR n hdep
            exact hne hbnn
          | cons y1 l' =>
            simp only [chainFrom] at hchain
            obtain ⟨hedge, hch⟩ := hchain
            have hy1 : y1 ∈ depsOf bn := hasEdge_deps hnames hedge hbn hbnn
            obtain ⟨hne, bd, hbd, r₀, r₁, hrec⟩ :=
              rdeps_ok_forall bundles _ bn.name
                (fun bd r₀ u₀ r' u' hh =>
                  rdep_unres_eq bundles f bd r₀ u₀ r' u' hh)
                (depsOf bn) res (unres ++ [bn.name]) r2 u2 hR y1 hy1
            obtain ⟨hbdmem, hbdn⟩ := bundlesGet_mem hbd
            exact rdep_chain_not_ok bundles hnames l' f y1 n bd r₀
              (unres ++ [bn.name]) r₁ _ hbdmem hbdn hch
              (by rw [← hbnn] at *; exact List.mem_append.mpr (Or.inr (by simp)))
              hrec

/-- On a successful full pass, every iterated bundle was resolved
successfully from the same `unresolved` path. -/
theorem resolveAll_ok_forall (bundles : List Bundle) (fuel : Nat) :
    ∀ iter res unres r u,
      resolveAll bundles fuel iter res unres = some (.ok (r, u)) →
        ∀ b ∈ iter, ∃ res₀ r₀,
          resolveDependencies bundles fuel b res₀ unres
            = some (.ok (r₀, unres)) := by
  intro iter
  induction iter with
  | nil => intro res unres r u _ b hb; simp at hb
  | cons b0 rest ih =>
    intro res unres r u h b hb
    simp only [resolveAll] at h
    cases hR : resolveDependencies bundles fuel b0 res unres with
    | none => rw [hR] at h; simp at h
    | some v =>
      rw [hR] at h
      match v with
      | .error e => simp at h
      | .ok (r1, u1) =>
        have hu1 : u1 = unres := rdep_unres_eq bundles fuel b0 res unres r1 u1 hR
        rw [hu1] at h hR
        rcases List.mem_cons.mp hb with rfl | hb'
        · exact ⟨res, r1, hR⟩
        · exact ih r1 unres r u h b hb'

/-- The dependency loop cannot run out of fuel if no recursive call can. -/
theorem rdeps_isSome (bundles : List Bundle)
    (recur : Bundle → List String → List String →
      Option (Except GlueErr (List String × List String)))
    (selfName : String) (unres : List String)
    (hpres : ∀ bd r₀ r' u',
      recur bd r₀ unres = some (.ok (r', u')) → u' = unres)
    (hnn : ∀ bd r₀, bd ∈ bundles → recur bd r₀ unres ≠ none) :
    ∀ deps res,
      resolveDependenciesDeps (bundlesGet bundles) recur selfName deps res
        unres ≠ none := by
  intro deps
  induction deps with
  | nil => intro res h; simp [resolveDependenciesDeps] at h
  | cons d rest ih =>
    intro res h
    simp only [resolveDependenciesDeps] at h
    by_cases hsd : selfName = d
    · simp [hsd] at h
    · rw [if_neg hsd] at h
      cases hl : bundlesGet bundles d with
      | none => rw [hl] at h; simp at h
      | some bd =>
        rw [hl] at h
        dsimp only at h
        cases hr : recur bd res unres with
        | none => exact hnn bd res (bundlesGet_mem hl).1 hr
        | some v =>
          rw [hr] at h
          match v with
          | .error e => simp at h
          | .ok (r1, u1) =>
            have hu1 : u1 = unres := hpres bd res r1 u1 hr
            rw [hu1] at h
            exact ih r1 h

/-- Fuel sufficiency: the recursion depth of `resolveDependencies` is
bounded by the number of bundles, because the active path grows by one new
bundle name at each level.  With fuel exceeding the remaining headroom the
resolver never returns the exhaustion marker. -/
theorem rdep_isSome (bundles : List Bundle) :
    ∀ fuel b res unres, b ∈ bundles → unres.Nodup →
      (∀ n ∈ unres, ∃ x ∈ bundles, x.name = n) →
      bundles.length + 1 ≤ fuel + unres.length →
      resolveDependencies bundles fuel b res unres ≠ none := by
  intro fuel
  induction fuel with
  | zero =>
    intro b res unres _ hnd hsub hfuel h
    have hle := nodup_names_length_le bundles unres hnd hsub
    omega
  | succ f ih =>
    intro b res unres hb hnd hsub hfuel h
    simp only [resolveDependencies] at h
    by_cases hmem : b.name ∈ unres
    · simp [hmem] at h
    · rw [if_neg hmem] at h
      have hnd' : (unres ++ [b.name]).Nodup := by
        refine List.nodup_append.mpr ⟨hnd, List.nodup_singleton _, ?_⟩
        intro a ha hamem
        obtain rfl := List.mem_singleton.mp hamem
        exact hmem ha
      have hsub' : ∀ n ∈ unres ++ [b.name], ∃ x ∈ bundles, x.name = n := by
        intro n hn
        rcases List.mem_append.mp hn with hn | hn
        · exact hsub n hn
        · obtain rfl := List.mem_singleton.mp hn
          exact ⟨b, hb, rfl⟩
      have hfuel' : bundles.length + 1 ≤ f + (unres ++ [b.name]).length := by
        simp only [List.length_append, List.length_singleton]
        omega
      cases hR : resolveDependenciesDeps (bundlesGet bundles)
          (fun bd r u => resolveDependencies bundles f bd r u) b.name
          (depsOf b) res (unres ++ [b.name]) with
      | none =>
        refine rdeps_isSome bundles _ b.name (unres ++ [b.name]) ?_ ?_
          (depsOf b) res hR
        · intro bd r₀ r' u' hh
          exact rdep_unres_eq bundles f bd r₀ _ r' u' hh
        · intro bd r₀ hbd
          exact ih bd r₀ (unres ++ [b.name]) hbd hnd' hsub' hfuel'
      | some v =>
        rw [hR] at h
        match v with
        | .error e => simp at h
        | .ok (r2, u2) =>
          dsimp only at h
          by_cases hbr : b.name ∈ r2
          · rw [if_pos hbr] at h; simp at h
          · rw [if_neg hbr] at h; simp at h

/-- The outer loop of `registerBundles` never runs out of fuel at
`bundles.length + 1` over any iteration of the bundle map. -/
theorem resolveAll_isSome (bundles : List Bundle) :
    ∀ iter res, (∀ b ∈ iter, b ∈ bundles) →
      resolveAll bundles (bundles.length + 1) iter res [] ≠ none := by
  intro iter
  induction iter with
  | nil => intro res _ h; simp [resolveAll] at h
  | cons b0 rest ih =>
    intro res hiter h
    simp only [resolveAll] at h
    cases hR : resolveDependencies bundles (bundles.length + 1) b0 res [] with
    | none =>
      exact rdep_isSome bundles (bundles.length + 1) b0 res []
        (hiter b0 (by simp)) List.nodup_nil (by simp) (by simp) hR
    | some v =>
      rw [hR] at h
      match v with
      | .error e => simp at h
      | .ok (r1, u1) =>
        have hu1 : u1 = [] := rdep_unres_eq bundles _ b0 res [] r1 u1 hR
        rw [hu1] at h
        exact ih r1 (fun b hb => hiter b (by simp [hb])) h

/-- Basic invariants of the outer loop: the order grows, stays
duplicate-free, holds only bundle names, and ends up containing the name of
every iterated bundle. -/
theorem resolveAll_basic (bundles : List Bundle) (fuel : Nat) :
    ∀ iter res unres r u, (∀ b ∈ iter, b ∈ bundles) →
      resolveAll bundles fuel iter res unres = some (.ok (r, u)) →
        (∃ t, r = res ++ t ∧ ∀ n ∈ t, ∃ x ∈ bundles, x.name = n)
          ∧ (res.Nodup → r.Nodup)
          ∧ ∀ b ∈ iter, b.name ∈ r := by
  intro iter
  induction iter with
  | nil =>
    intro res unres r u _ h
    simp only [resolveAll, Option.some.injEq, Except.ok.injEq,
      Prod.mk.injEq] at h
    obtain ⟨h1, _⟩ := h
    subst h1
    exact ⟨⟨[], by simp, by simp⟩, id, by simp⟩
  | cons b0 rest ih =>
    intro res unres r u hiter h
    simp only [resolveAll] at h
    cases hR : resolveDependencies bundles fuel b0 res unres with
    | none => rw [hR] at h; simp at h
    | some v =>
      rw [hR] at h
      match v with
      | .error e => simp at h
      | .ok (r1, u1) =>
        have hb0 : b0 ∈ bundles := hiter b0 (by simp)
        obtain ⟨⟨t1, ht1, ht1n⟩, hmem1, hnd1⟩ :=
          rdep_basic bundles fuel b0 res unres r1 u1 hb0 hR
        obtain ⟨⟨t2, ht2, ht2n⟩, hnd2, hmem2⟩ :=
          ih r1 u1 r u (fun b hb => hiter b (by simp [hb])) h
        refine ⟨⟨t1 ++ t2, ?_, ?_⟩, ?_, ?_⟩
        · rw [ht2, ht1, List.append_assoc]
        · intro n hn
          rcases List.mem_append.mp hn with hn | hn
          · exact ht1n n hn
          · exact ht2n n hn
        · intro hres
          exact hnd2 (hnd1 hres)
        · intro b hb
          rcases List.mem_cons.mp hb with rfl | hb'
          · rw [ht2]
            exact List.mem_append.mpr (Or.inl hmem1)
          · exact hmem2 b hb'

/-- The build phase never hits the nil-map lookup when every name in the
order belongs to a bundle of the set. -/
theorem runBuilds_isSome (bundles : List Bundle) :
    ∀ order trace, (∀ n ∈ order, ∃ x ∈ bundles, x.name = n) →
      runBuilds bundles order trace ≠ none := by
  intro order
  induction order with
  | nil => intro trace _ h; simp [runBuilds] at h
  | cons n rest ih =>
    intro trace hsub h
    simp only [runBuilds] at h
    obtain ⟨bd, hbd, -, -⟩ := bundlesGet_of_exists (hsub n (by simp))
    rw [hbd] at h
    dsimp only at h
    cases hbe : bd.buildErr with
    | some msg => rw [hbe] at h; simp at h
    | none =>
      rw [hbe] at h
      exact ih (trace ++ [n]) (fun m hm => hsub m (by simp [hm])) h

/-- C10: for every finite bundle set — cycles included — `registerBundles`
terminates with an order or an error.  In this embedding the Go recursion's
depth bound (one fresh bundle name pushed on the active path per level) is
exactly the statement that fuel `bundles.length + 1` never runs out, and the
build-phase map lookups always find their bundle. -/
theorem claim_c10_registerBundles_total (bundles iter : List Bundle)
    (hiter : ∀ b ∈ iter, b ∈ bundles) :
    ∃ v, registerBundles bundles iter = some v := by
  cases hA : resolveAll bundles (bundles.length + 1) iter [] [] with
  | none => exact absurd hA (resolveAll_isSome bundles iter [] hiter)
  | some v =>
    match v with
    | .error e =>
      refine ⟨(.error e, []), ?_⟩
      simp [registerBundles, resolveOrder, hA]
    | .ok (r, u) =>
      have hsub : ∀ n ∈ r, ∃ x ∈ bundles, x.name = n := by
        obtain ⟨⟨t, ht, htn⟩, -, -⟩ :=
          resolveAll_basic bundles (bundles.length + 1) iter [] [] r u
            hiter hA
        rw [ht]
        simpa using htn
      cases hB : runBuilds bundles r [] with
      | none => exact absurd hB (runBuilds_isSome bundles r [] hsub)
      | some w =>
        match w with
        | (.error e, tr) =>
          refine ⟨(.error e, tr), ?_⟩
          simp [registerBundles, resolveOrder, hA, hB]
        | (.ok _, tr) =>
          refine ⟨(.ok r, tr), ?_⟩
          simp [registerBundles, resolveOrder, hA, hB]

/-- C10 witness: a two-bundle dependency cycle still terminates (with an
error value). -/
theorem claim_c10_witness :
    ∃ v, registerBundles
        [⟨"a", some ["b"], none⟩, ⟨"b", some ["a"], none⟩]
        [⟨"a", some ["b"], none⟩, ⟨"b", some ["a"], none⟩] = some v :=
  claim_c10_registerBundles_total _ _ (fun _ hb => hb)

/-- When the `Bundles` option succeeds, the bundle map holds exactly the
supplied bundles and their names are pairwise distinct. -/
theorem bundlesOption_ok_inv (bs : List Bundle) :
    ∀ acc r, (acc.map Bundle.name).Nodup → bundlesOption bs acc = .ok r →
      r = acc ++ bs ∧ ((acc ++ bs).map Bundle.name).Nodup := by
  induction bs with
  | nil =>
    intro acc r hnd h
    simp only [bundlesOption, Except.ok.injEq] at h
    subst h
    exact ⟨by simp, by simpa using hnd⟩
  | cons b rest ih =>
    intro acc r hnd h
    simp only [bundlesOption] at h
    by_cases hmem : acc.any (fun x => x.name == b.name)
    · rw [if_pos hmem] at h
      simp at h
    · rw [if_neg hmem] at h
      have hnotin : b.name ∉ acc.map Bundle.name := by
        simp only [List.any_eq_true, beq_iff_eq] at hmem
        simp only [List.mem_map]
        rintro ⟨x, hx, hxe⟩
        exact hmem ⟨x, hx, hxe⟩
      have hnd' : ((acc ++ [b]).map Bundle.name).Nodup := by
        simp only [List.map_append, List.map_cons, List.map_nil]
        exact List.Nodup.append hnd (List.nodup_singleton _)
          (by simpa using fun hh => hnotin hh)
      obtain ⟨h1, h2⟩ := ih (acc ++ [b]) r hnd' h
      refine ⟨?_, ?_⟩
      · rw [h1, List.append_assoc, List.singleton_append]
      · rw [List.append_assoc, List.singleton_append] at h2
        exact h2

/-- C2: a dependency cycle — a self-loop or a longer circular chain of
declared dependencies within the supplied set — always makes `NewApp` fail
with an error, never with a successful (or truncated) registration order,
and no `Build` step runs. -/
theorem claim_c2_cycle_error (bundleList iter : List Bundle) (n : String)
    (l : List String)
    (hiter : ∀ b, b ∈ iter ↔ b ∈ bundleList)
    (hcycle : chainFrom bundleList n l n) :
    ∃ e, newApp bundleList iter = some (.error e, []) := by
  cases hO : bundlesOption bundleList [] with
  | error e => exact ⟨e, by simp [newApp, hO]⟩
  | ok bundles =>
    obtain ⟨hbe, hnames⟩ :=
      bundlesOption_ok_inv bundleList [] bundles (by simp) hO
    simp only [List.nil_append] at hbe hnames
    subst hbe
    have hiter' : ∀ b ∈ iter, b ∈ bundles := fun b hb => (hiter b).mp hb
    cases hA : resolveAll bundles (bundles.length + 1) iter [] [] with
    | none => exact absurd hA (resolveAll_isSome bundles iter [] hiter')
    | some v =>
      match v with
      | .ok (r, u) =>
        exfalso
        have hn : ∃ bz ∈ bundles, bz.name = n := by
          cases l with
          | nil =>
            simp only [chainFrom] at hcycle
            obtain ⟨bz, hbz, hbzn, -⟩ := hcycle
            exact ⟨bz, hbz, hbzn⟩
          | cons y l' =>
            simp only [chainFrom] at hcycle
            obtain ⟨⟨bz, hbz, hbzn, -⟩, -⟩ := hcycle
            exact ⟨bz, hbz, hbzn⟩
        obtain ⟨bz, hbz, hbzn⟩ := hn
        obtain ⟨res₀, r₀, hok⟩ :=
          resolveAll_ok_forall bundles _ iter [] [] r u hA bz
            ((hiter bz).mpr hbz)
        exact rdep_cycle_not_ok bundles hnames n l hcycle _ bz res₀ []
          r₀ [] hbz hbzn hok
      | .error e =>
        refine ⟨e, ?_⟩
        simp [newApp, hO, registerBundles, resolveOrder, hA]

/-- C2 witness: the mutual cycle `a → b → a`. -/
theorem claim_c2_witness :
    ∃ e, newApp [⟨"a", some ["b"], none⟩, ⟨"b", some ["a"], none⟩]
        [⟨"a", some ["b"], none⟩, ⟨"b", some ["a"], none⟩]
      = some (.error e, []) :=
  claim_c2_cycle_error _ _ "a" ["b"] (fun _ => Iff.rfl) (by decide)

/-- Extending a dependency chain by one edge at its end. -/
theorem chainFrom_snoc (bundles : List Bundle) :
    ∀ (l : List String) (x z d : String), chainFrom bundles x l z →
      hasEdge bundles z d → chainFrom bundles x (l ++ [z]) d := by
  intro l
  induction l with
  | nil => intro x z d hch he; exact ⟨hch, he⟩
  | cons y l ih =>
    intro x z d hch he
    obtain ⟨hxy, hch'⟩ := hch
    exact ⟨hxy, ih y z d hch' he⟩

/-- A chain restricted to a suffix of its intermediate names is a chain. -/
theorem chainFrom_split (bundles : List Bundle) :
    ∀ (l1 l2 : List String) (x m z : String),
      chainFrom bundles x (l1 ++ m :: l2) z → chainFrom bundles m l2 z := by
  intro l1
  induction l1 with
  | nil => intro l2 x m z h; exact h.2
  | cons y l1 ih => intro l2 x m z h; exact ih l2 y m z h.2

/-- In a cycle-free dependency graph, a chain never returns to a name it
already visited: the DFS path of the resolver cannot repeat a name. -/
theorem chain_stack_no_revisit (bundles : List Bundle)
    (hacyc : ∀ n l, ¬ chainFrom bundles n l n) :
    ∀ (x : String) (l : List String) (m : String),
      chainFrom bundles x l m → m ∉ x :: l := by
  intro x l m hch hmem
  rcases List.mem_cons.mp hmem with rfl | hmem
  · exact hacyc m l hch
  · obtain ⟨s, t, rfl⟩ := List.append_of_mem hmem
    exact hacyc m t (chainFrom_split bundles s t x m m hch)

/-- A rank strictly decreasing along every declared dependency certifies
that the dependency graph has no cycle. -/
theorem rank_nocycle (bundles : List Bundle) (rk : String → Nat)
    (hrank : ∀ x ∈ bundles, ∀ d ∈ depsOf x, rk d < rk x.name) :
    ∀ n l, ¬ chainFrom bundles n l n := by
  have hedge : ∀ x y, hasEdge bundles x y → rk y < rk x := by
    rintro x y ⟨b, hb, hbn, hy⟩
    exact hbn ▸ hrank b hb y hy
  have hchain : ∀ l x z, chainFrom bundles x l z → rk z < rk x := by
    intro l
    induction l with
    | nil => intro x z h; exact hedge x z h
    | cons y l ih => intro x z h; exact lt_trans (ih y z h.2) (hedge x y h.1)
  intro n l hcyc
  exact absurd (hchain l n n hcyc) (lt_irrefl _)

/-- Success of the dependency loop: when every dependency passes the
self-check, is found in the map, and resolves successfully with the path
handed back unchanged, the loop succeeds and hands the path back. -/
theorem rdeps_success_of (bundles : List Bundle)
    (recur : Bundle → List String → List String →
      Option (Except GlueErr (List String × List String)))
    (selfName : String) (unres : List String) :
    ∀ deps res,
      (∀ d ∈ deps, selfName ≠ d ∧ ∃ bd, bundlesGet bundles d = some bd ∧
        ∀ res₀, ∃ r', recur bd res₀ unres = some (.ok (r', unres))) →
      ∃ r', resolveDependenciesDeps (bundlesGet bundles) recur selfName deps
        res unres = some (.ok (r', unres)) := by
  intro deps
  induction deps with
  | nil => intro res _; exact ⟨res, rfl⟩
  | cons d rest ih =>
    intro res h
    obtain ⟨hne, bd, hbd, hr⟩ := h d (by simp)
    obtain ⟨r1, hr1⟩ := hr res
    obtain ⟨r', hr'⟩ := ih r1 (fun d' hd' => h d' (by simp [hd']))
    refine ⟨r', ?_⟩
    simp only [resolveDependenciesDeps]
    rw [if_neg hne, hbd]
    dsimp only
    rw [hr1]
    exact hr'

/-- Success of `resolveDependencies` on a closed, cycle-free bundle set:
when the active path is a dependency chain ending at the bundle being
resolved, the resolver reports no error and restores the path.  The
cycle-freeness hypothesis is exactly the claim's acyclicity. -/
theorem rdep_success_nocycle (bundles : List Bundle)
    (hclosed : ∀ x ∈ bundles, ∀ d ∈ depsOf x, ∃ y ∈ bundles, y.name = d)
    (hacyc : ∀ n l, ¬ chainFrom bundles n l n) :
    ∀ fuel b res unres, b ∈ bundles → unres.Nodup →
      (∀ m ∈ unres, ∃ x ∈ bundles, x.name = m) →
      (unres = [] ∨ ∃ x l, unres = x :: l ∧ chainFrom bundles x l b.name) →
      bundles.length + 1 ≤ fuel + unres.length →
      ∃ r, resolveDependencies bundles fuel b res unres
        = some (.ok (r, unres)) := by
  intro fuel
  induction fuel with
  | zero =>
    intro b res unres _ hnd hsub _ hfuel
    exfalso
    have hle := nodup_names_length_le bundles unres hnd hsub
    omega
  | succ f ih =>
    intro b res unres hb hnd hsub hchain hfuel
    have hmem : b.name ∉ unres := by
      intro hm
      rcases hchain with rfl | ⟨x, l, rfl, hch⟩
      · simp at hm
      · exact chain_stack_no_revisit bundles hacyc x l b.name hch hm
    have hnd' : (unres ++ [b.name]).Nodup := by
      refine List.nodup_append.mpr ⟨hnd, List.nodup_singleton _, ?_⟩
      intro a ha hamem
      obtain rfl := List.mem_singleton.mp hamem
      exact hmem ha
    have hsub' : ∀ n ∈ unres ++ [b.name], ∃ x ∈ bundles, x.name = n := by
      intro n hn
      rcases List.mem_append.mp hn with hn | hn
      · exact hsub n hn
      · obtain rfl := List.mem_singleton.mp hn
        exact ⟨b, hb, rfl⟩
    have hfuel' : bundles.length + 1 ≤ f + (unres ++ [b.name]).length := by
      simp only [List.length_append, List.length_singleton]
      omega
    have hdeps : ∀ d ∈ depsOf b, b.name ≠ d
        ∧ ∃ bd, bundlesGet bundles d = some bd
        ∧ ∀ res₀, ∃ r', resolveDependencies bundles f bd res₀
            (unres ++ [b.name]) = some (.ok (r', unres ++ [b.name])) := by
      intro d hd
      have hedge : hasEdge bundles b.name d := ⟨b, hb, rfl, hd⟩
      have hne : b.name ≠ d := by
        intro he
        subst he
        exact hacyc b.name [] hedge
      obtain ⟨bd, hbd, hbdmem, hbdn⟩ :=
        bundlesGet_of_exists (hclosed b hb d hd)
      refine ⟨hne, bd, hbd, fun res₀ => ?_⟩
      refine ih bd res₀ (unres ++ [b.name]) hbdmem hnd' hsub' ?_ hfuel'
      right
      rcases hchain with rfl | ⟨x, l, rfl, hch⟩
      · refine ⟨b.name, [], by simp, ?_⟩
        rw [hbdn]
        exact hedge
      · refine ⟨x, l ++ [b.name], by simp, ?_⟩
        rw [hbdn]
        exact chainFrom_snoc bundles l x b.name d hch hedge
    obtain ⟨r2, hr2⟩ := rdeps_success_of bundles _ b.name (unres ++ [b.name])
      (depsOf b) res hdeps
    by_cases hbr : b.name ∈ r2
    · refine ⟨r2, ?_⟩
      simp only [resolveDependencies]
      rw [if_neg hmem, hr2]
      dsimp only
      rw [if_pos hbr, List.dropLast_concat]
    · refine ⟨r2 ++ [b.name], ?_⟩
      simp only [resolveDependencies]
      rw [if_neg hmem, hr2]
      dsimp only
      rw [if_neg hbr, List.dropLast_concat]

/-- After a successful pass over a dependency list, every listed dependency
name is in the resulting `resolved` slice. -/
theorem rdeps_mem_final (bundles : List Bundle)
    (recur : Bundle → List String → List String →
      Option (Except GlueErr (List String × List String)))
    (selfName : String)
    (hrec : ∀ bd r₀ u₀ r' u', bd ∈ bundles →
      recur bd r₀ u₀ = some (.ok (r', u')) →
        (∃ t, r' = r₀ ++ t ∧ ∀ n ∈ t, ∃ x ∈ bundles, x.name = n)
          ∧ bd.name ∈ r' ∧ (r₀.Nodup → r'.Nodup)) :
    ∀ deps res unres r u,
      resolveDependenciesDeps (bundlesGet bundles) recur selfName deps res
          unres = some (.ok (r, u)) →
        ∀ d ∈ deps, d ∈ r := by
  intro deps
  induction deps with
  | nil => intro res unres r u _ d hd; simp at hd
  | cons d0 rest ih =>
    intro res unres r u h d hd
    simp only [resolveDependenciesDeps] at h
    by_cases hsd : selfName = d0
    · simp [hsd] at h
    · rw [if_neg hsd] at h
      cases hl : bundlesGet bundles d0 with
      | none => rw [hl] at h; simp at h
      | some bd =>
        rw [hl] at h
        dsimp only at h
        cases hr : recur bd res unres with
        | none => rw [hr] at h; simp at h
        | some v =>
          rw [hr] at h
          match v with
          | .error e => simp at h
          | .ok (r1, u1) =>
            rcases List.mem_cons.mp hd with rfl | hd'
            · obtain ⟨hbdmem, hbdn⟩ := bundlesGet_mem hl
              obtain ⟨-, hmem1, -⟩ := hrec bd res unres r1 u1 hbdmem hr
              obtain ⟨⟨t, ht, -⟩, -⟩ := rdeps_basic bundles recur selfName
                hrec rest r1 u1 r u h
              rw [ht]
              exact List.mem_append.mpr (Or.inl (hbdn ▸ hmem1))
            · exact ih r1 u1 r u h d hd'

/-- The dependency loop preserves the ordering contract when each recursive
call does. -/
theorem rdeps_indexOk (bundles : List Bundle)
    (recur : Bundle → List String → List String →
      Option (Except GlueErr (List String × List String)))
    (selfName : String)
    (hrec : ∀ bd r₀ u₀ r' u', bd ∈ bundles →
      recur bd r₀ u₀ = some (.ok (r', u')) →
        depsIndexOk bundles r₀ → depsIndexOk bundles r') :
    ∀ deps res unres r u,
      resolveDependenciesDeps (bundlesGet bundles) recur selfName deps res
          unres = some (.ok (r, u)) →
        depsIndexOk bundles res → depsIndexOk bundles r := by
  intro deps
  induction deps with
  | nil =>
    intro res unres r u h hidx
    simp only [resolveDependenciesDeps, Option.some.injEq, Except.ok.injEq,
      Prod.mk.injEq] at h
    obtain ⟨h1, -⟩ := h
    subst h1
    exact hidx
  | cons d0 rest ih =>
    intro res unres r u h hidx
    simp only [resolveDependenciesDeps] at h
    by_cases hsd : selfName = d0
    · simp [hsd] at h
    · rw [if_neg hsd] at h
      cases hl : bundlesGet bundles d0 with
      | none => rw [hl] at h; simp at h
      | some bd =>
        rw [hl] at h
        dsimp only at h
        cases hr : recur bd res unres with
        | none => rw [hr] at h; simp at h
        | some v =>
          rw [hr] at h
          match v with
          | .error e => simp at h
          | .ok (r1, u1) =>
            exact ih r1 u1 r u h
              (hrec bd res unres r1 u1 (bundlesGet_mem hl).1 hr hidx)

/-- `resolveDependencies` preserves the ordering contract: every name it
appends goes in only after all of that bundle's dependencies, so indices of
dependencies stay strictly below the dependent's index. -/
theorem rdep_indexOk (bundles : List Bundle)
    (hnames : (bundles.map Bundle.name).Nodup) :
    ∀ fuel b res unres r u, b ∈ bundles →
      resolveDependencies bundles fuel b res unres = some (.ok (r, u)) →
      depsIndexOk bundles res → depsIndexOk bundles r := by
  intro fuel
  induction fuel with
  | zero => intro b res unres r u _ h; simp [resolveDependencies] at h
  | succ f ih =>
    intro b res unres r u hb h hidx
    simp only [resolveDependencies] at h
    by_cases hmem : b.name ∈ unres
    · simp [hmem] at h
    · rw [if_neg hmem] at h
      cases hR : resolveDependenciesDeps (bundlesGet bundles)
          (fun bd r u => resolveDependencies bundles f bd r u) b.name
          (depsOf b) res (unres ++ [b.name]) with
      | none => rw [hR] at h; simp at h
      | some v =>
        rw [hR] at h
        match v with
        | .error e => simp at h
        | .ok (r2, u2) =>
          dsimp only at h
          have hidx2 : depsIndexOk bundles r2 :=
            rdeps_indexOk bundles _ b.name
              (fun bd r₀ u₀ r' u' hbd hh hi => ih bd r₀ u₀ r' u' hbd hh hi)
              (depsOf b) res (unres ++ [b.name]) r2 u2 hR hidx
          by_cases hbr : b.name ∈ r2
          · rw [if_pos hbr] at h
            simp only [Option.some.injEq, Except.ok.injEq,
              Prod.mk.injEq] at h
            obtain ⟨h1, -⟩ := h
            subst h1
            exact hidx2
          · rw [if_neg hbr] at h
            simp only [Option.some.injEq, Except.ok.injEq,
              Prod.mk.injEq] at h
            obtain ⟨h1, -⟩ := h
            subst h1
            have hdepsmem : ∀ d ∈ depsOf b, d ∈ r2 :=
              rdeps_mem_final bundles _ b.name
                (fun bd r₀ u₀ r' u' hbd hh =>
                  rdep_basic bundles f bd r₀ u₀ r' u' hbd hh)
                (depsOf b) res (unres ++ [b.name]) r2 u2 hR
            intro x hx hxr d hd
            by_cases hxb : x.name ∈ r2
            · obtain ⟨hdr2, hlt⟩ := hidx2 x hx hxb d hd
              refine ⟨List.mem_append.mpr (Or.inl hdr2), ?_⟩
              rw [List.indexOf_append_of_mem hdr2,
                List.indexOf_append_of_mem hxb]
              exact hlt
            · have hxname : x.name = b.name := by
                rcases List.mem_append.mp hxr with hxr' | hxr'
                · exact absurd hxr' hxb
                · exact List.mem_singleton.mp hxr'
              have hxeq : x = b := bundle_name_inj hnames hx hb hxname
              subst hxeq
              have hdr2 : d ∈ r2 := hdepsmem d hd
              refine ⟨List.mem_append.mpr (Or.inl hdr2), ?_⟩
              rw [List.indexOf_append_of_mem hdr2,
                List.indexOf_append_of_not_mem hxb, hxname,
                List.indexOf_cons_self]
              have := List.indexOf_lt_length.mpr hdr2
              omega

/-- On a closed, cycle-free bundle set the outer loop succeeds from the
empty state, whatever the iteration order. -/
theorem resolveAll_success (bundles : List Bundle)
    (hclosed : ∀ x ∈ bundles, ∀ d ∈ depsOf x, ∃ y ∈ bundles, y.name = d)
    (hacyc : ∀ n l, ¬ chainFrom bundles n l n) :
    ∀ iter res, (∀ b ∈ iter, b ∈ bundles) →
      ∃ r, resolveAll bundles (bundles.length + 1) iter res []
        = some (.ok (r, [])) := by
  intro iter
  induction iter with
  | nil => intro res _; exact ⟨res, rfl⟩
  | cons b0 rest ih =>
    intro res hiter
    obtain ⟨r1, hr1⟩ := rdep_success_nocycle bundles hclosed hacyc
      (bundles.length + 1) b0 res [] (hiter b0 (by simp)) List.nodup_nil
      (by simp) (Or.inl rfl) (by simp)
    obtain ⟨r, hr⟩ := ih r1 (fun b hb => hiter b (by simp [hb]))
    refine ⟨r, ?_⟩
    simp only [resolveAll]
    rw [hr1]
    exact hr

/-- The outer loop preserves the ordering contract. -/
theorem resolveAll_indexOk (bundles : List Bundle)
    (hnames : (bundles.map Bundle.name).Nodup) (fuel : Nat) :
    ∀ iter res unres r u, (∀ b ∈ iter, b ∈ bundles) →
      resolveAll bundles fuel iter res unres = some (.ok (r, u)) →
      depsIndexOk bundles res → depsIndexOk bundles r := by
  intro iter
  induction iter with
  | nil =>
    intro res unres r u _ h hidx
    simp only [resolveAll, Option.some.injEq, Except.ok.injEq,
      Prod.mk.injEq] at h
    obtain ⟨h1, -⟩ := h
    subst h1
    exact hidx
  | cons b0 rest ih =>
    intro res unres r u hiter h hidx
    simp only [resolveAll] at h
    cases hR : resolveDependencies bundles fuel b0 res unres with
    | none => rw [hR] at h; simp at h
    | some v =>
      rw [hR] at h
      match v with
      | .error e => simp at h
      | .ok (r1, u1) =>
        exact ih r1 u1 r u (fun b hb => hiter b (by simp [hb])) h
          (rdep_indexOk bundles hnames fuel b0 res unres r1 u1
            (hiter b0 (by simp)) hR hidx)

/-- C1: on a bundle set with pairwise-distinct names whose dependency graph
is acyclic (no chain of declared dependencies returns to its starting name)
and closed (every declared dependency names a bundle of the set), the
resolution phase of `registerBundles` succeeds — under any iteration order
of the bundle map — with an order in which every bundle's name appears
exactly once and every declared dependency's index is strictly below its
dependent's index. -/
theorem claim_c1_resolver_order (bundles iter : List Bundle)
    (hnames : (bundles.map Bundle.name).Nodup)
    (hiter : ∀ b, b ∈ iter ↔ b ∈ bundles)
    (hclosed : ∀ x ∈ bundles, ∀ d ∈ depsOf x, ∃ y ∈ bundles, y.name = d)
    (hacyc : ∀ n l, ¬ chainFrom bundles n l n) :
    ∃ r, resolveOrder bundles iter = some (.ok r)
      ∧ (∀ b ∈ bundles, r.count b.name = 1)
      ∧ ∀ b ∈ bundles, ∀ d ∈ depsOf b,
          r.indexOf d < r.indexOf b.name := by
  have hiter1 : ∀ b ∈ iter, b ∈ bundles := fun b hb => (hiter b).mp hb
  obtain ⟨r, hA⟩ := resolveAll_success bundles hclosed hacyc iter [] hiter1
  obtain ⟨-, hndf, hmemf⟩ :=
    resolveAll_basic bundles (bundles.length + 1) iter [] [] r [] hiter1 hA
  have hnd : r.Nodup := hndf List.nodup_nil
  have hidx : depsIndexOk bundles r :=
    resolveAll_indexOk bundles hnames (bundles.length + 1) iter [] [] r []
      hiter1 hA (fun x _ hxr => absurd hxr (List.not_mem_nil _))
  refine ⟨r, ?_, ?_, ?_⟩
  · simp [resolveOrder, hA]
  · intro b hb
    exact List.count_eq_one_of_mem hnd (hmemf b ((hiter b).mpr hb))
  · intro b hb d hd
    exact (hidx b hb (hmemf b ((hiter b).mpr hb)) d hd).2

/-- C1 witness: bundles `a`, `b`, and `c` depending on both, ranked by
`c ↦ 1`, others `0`. -/
theorem claim_c1_witness :
    ∃ r, resolveOrder
        [⟨"a", none, none⟩, ⟨"b", none, none⟩, ⟨"c", some ["a", "b"], none⟩]
        [⟨"a", none, none⟩, ⟨"b", none, none⟩, ⟨"c", some ["a", "b"], none⟩]
      = some (.ok r)
      ∧ (∀ b ∈ [(⟨"a", none, none⟩ : Bundle), ⟨"b", none, none⟩,
          ⟨"c", some ["a", "b"], none⟩], r.count b.name = 1)
      ∧ ∀ b ∈ [(⟨"a", none, none⟩ : Bundle), ⟨"b", none, none⟩,
          ⟨"c", some ["a", "b"], none⟩], ∀ d ∈ depsOf b,
          r.indexOf d < r.indexOf b.name :=
  claim_c1_resolver_order _ _
    (by decide) (fun _ => Iff.rfl) (by decide)
    (rank_nocycle _ (fun n => if n = "c" then 1 else 0) (by decide))

/-- A successful resolution has looked up every declared dependency of its
bundle. -/
theorem rdep_ok_deps_present (bundles : List Bundle) :
    ∀ fuel b res unres r u,
      resolveDependencies bundles fuel b res unres = some (.ok (r, u)) →
      ∀ d ∈ depsOf b, ∃ bd, bundlesGet bundles d = some bd := by
  intro fuel b res unres r u h d hd
  cases fuel with
  | zero => simp [resolveDependencies] at h
  | succ f =>
    simp only [resolveDependencies] at h
    by_cases hmem : b.name ∈ unres
    · simp [hmem] at h
    · rw [if_neg hmem] at h
      cases hR : resolveDependenciesDeps (bundlesGet bundles)
          (fun bd r u => resolveDependencies bundles f bd r u) b.name
          (depsOf b) res (unres ++ [b.name]) with
      | none => rw [hR] at h; simp at h
      | some v =>
        rw [hR] at h
        match v with
        | .error e => simp at h
        | .ok (r2, u2) =>
          obtain ⟨-, bd, hbd, -⟩ := rdeps_ok_forall bundles _ b.name
            (fun bd r₀ u₀ r' u' hh =>
              rdep_unres_eq bundles f bd r₀ u₀ r' u' hh)
            (depsOf b) res (unres ++ [b.name]) r2 u2 hR d hd
          exact ⟨bd, hbd⟩

/-- Error classification for the dependency loop: with the self-check
excluded up front and every recursive error already classified, the only
error the loop itself can produce is a genuine unresolved-dependency
report. -/
theorem rdeps_error_class (bundles : List Bundle)
    (recur : Bundle → List String → List String →
      Option (Except GlueErr (List String × List String)))
    (selfName : String) (unres : List String)
    (bx : Bundle) (hbx : bx ∈ bundles) (hbxn : bx.name = selfName)
    (hpres : ∀ bd r₀ r' u',
      recur bd r₀ unres = some (.ok (r', u')) → u' = unres)
    (hrecerr : ∀ bd r₀ e, bd ∈ bundles → bd.name ∈ depsOf bx →
      recur bd r₀ unres = some (.error e) → missingDepErr bundles e) :
    ∀ deps res e, (∀ d ∈ deps, d ∈ depsOf bx) →
      (∀ d ∈ deps, selfName ≠ d) →
      resolveDependenciesDeps (bundlesGet bundles) recur selfName deps res
          unres = some (.error e) →
      missingDepErr bundles e := by
  intro deps
  induction deps with
  | nil => intro res e _ _ h; simp [resolveDependenciesDeps] at h
  | cons d0 rest ih =>
    intro res e hdeps hne h
    simp only [resolveDependenciesDeps] at h
    by_cases hsd : selfName = d0
    · exact absurd hsd (hne d0 (by simp))
    · rw [if_neg hsd] at h
      cases hl : bundlesGet bundles d0 with
      | none =>
        rw [hl] at h
        simp only [Option.some.injEq, Except.error.injEq] at h
        subst h
        exact ⟨selfName, d0, rfl, bx, hbx, hbxn, hdeps d0 (by simp),
          bundlesGet_none hl⟩
      | some bd =>
        rw [hl] at h
        dsimp only at h
        cases hr : recur bd res unres with
        | none => rw [hr] at h; simp at h
        | some v =>
          rw [hr] at h
          match v with
          | .error e' =>
            simp only [Option.some.injEq, Except.error.injEq] at h
            subst h
            obtain ⟨hbdmem, hbdn⟩ := bundlesGet_mem hl
            exact hrecerr bd res e' hbdmem (hbdn ▸ hdeps d0 (by simp)) hr
          | .ok (r1, u1) =>
            have hu1 : u1 = unres := hpres bd res r1 u1 hr
            rw [hu1] at h
            exact ih r1 e (fun d hd => hdeps d (by simp [hd]))
              (fun d hd => hne d (by simp [hd])) h

/-- Error classification for `resolveDependencies`: on a cycle-free set
(self-loops included), every error the resolver returns is a genuine
unresolved-dependency report — the circular and self-dependency checks can
never fire. -/
theorem rdep_error_class (bundles : List Bundle)
    (hacyc : ∀ n l, ¬ chainFrom bundles n l n) :
    ∀ fuel b res unres e, b ∈ bundles →
      (unres = [] ∨ ∃ x l, unres = x :: l ∧ chainFrom bundles x l b.name) →
      resolveDependencies bundles fuel b res unres = some (.error e) →
      missingDepErr bundles e := by
  intro fuel
  induction fuel with
  | zero => intro b res unres e _ _ h; simp [resolveDependencies] at h
  | succ f ih =>
    intro b res unres e hb hchain h
    simp only [resolveDependencies] at h
    by_cases hmem : b.name ∈ unres
    · exfalso
      rcases hchain with rfl | ⟨x, l, rfl, hch⟩
      · simp at hmem
      · exact chain_stack_no_revisit bundles hacyc x l b.name hch hmem
    · rw [if_neg hmem] at h
      cases hR : resolveDependenciesDeps (bundlesGet bundles)
          (fun bd r u => resolveDependencies bundles f bd r u) b.name
          (depsOf b) res (unres ++ [b.name]) with
      | none => rw [hR] at h; simp at h
      | some v =>
        rw [hR] at h
        match v with
        | .ok (r2, u2) =>
          dsimp only at h
          by_cases hbr : b.name ∈ r2
          · rw [if_pos hbr] at h; simp at h
          · rw [if_neg hbr] at h; simp at h
        | .error e' =>
          simp only [Option.some.injEq, Except.error.injEq] at h
          subst h
          refine rdeps_error_class bundles _ b.name (unres ++ [b.name]) b hb
            rfl
            (fun bd r₀ r' u' hh => rdep_unres_eq bundles f bd r₀ _ r' u' hh)
            ?_ (depsOf b) res e' (fun d hd => hd)
            (fun d hd he => hacyc b.name []
              (show hasEdge bundles b.name b.name from
                ⟨b, hb, rfl, he ▸ hd⟩)) hR
          intro bd r₀ e'' hbd hbddep hh
          refine ih bd r₀ (unres ++ [b.name]) e'' hbd ?_ hh
          have hedge : hasEdge bundles b.name bd.name := ⟨b, hb, rfl, hbddep⟩
          right
          rcases hchain with rfl | ⟨x, l, rfl, hch⟩
          · exact ⟨b.name, [], by simp, hedge⟩
          · exact ⟨x, l ++ [b.name], by simp,
              chainFrom_snoc bundles l x b.name bd.name hch hedge⟩

/-- Error classification for the outer loop, starting from the empty path. -/
theorem resolveAll_error_class (bundles : List Bundle)
    (hacyc : ∀ n l, ¬ chainFrom bundles n l n) (fuel : Nat) :
    ∀ iter res e, (∀ b ∈ iter, b ∈ bundles) →
      resolveAll bundles fuel iter res [] = some (.error e) →
      missingDepErr bundles e := by
  intro iter
  induction iter with
  | nil => intro res e _ h; simp [resolveAll] at h
  | cons b0 rest ih =>
    intro res e hiter h
    simp only [resolveAll] at h
    cases hR : resolveDependencies bundles fuel b0 res [] with
    | none => rw [hR] at h; simp at h
    | some v =>
      rw [hR] at h
      match v with
      | .error e' =>
        simp only [Option.some.injEq, Except.error.injEq] at h
        subst h
        exact rdep_error_class bundles hacyc fuel b0 res [] e'
          (hiter b0 (by simp)) (Or.inl rfl) hR
      | .ok (r1, u1) =>
        have hu1 : u1 = [] := rdep_unres_eq bundles fuel b0 res [] r1 u1 hR
        rw [hu1] at h
        exact ih r1 e (fun b hb => hiter b (by simp [hb])) h

/-- C3 (amended): if some bundle declares a dependency on a name carried by
no bundle of the supplied set, `NewApp` always fails with an error before
any `Build` step runs; and when the set has no other defect — pairwise
distinct names and no dependency cycle (self-loops included; acyclicity is
stated directly as: no chain of declared dependencies returns to its
starting name) — the error is an unresolved-dependency error naming a
bundle of the set together with one of its genuinely missing
dependencies. -/
theorem claim_c3_missing_dep (bundleList iter : List Bundle)
    (hiter : ∀ b, b ∈ iter ↔ b ∈ bundleList)
    (hmiss : ∃ b ∈ bundleList, ∃ d ∈ depsOf b,
      ∀ y ∈ bundleList, y.name ≠ d) :
    (∃ e, newApp bundleList iter = some (.error e, []))
    ∧ ((bundleList.map Bundle.name).Nodup →
        (∀ n l, ¬ chainFrom bundleList n l n) →
        ∃ x y, newApp bundleList iter
            = some (.error (.unresolvedDep x y), [])
          ∧ ∃ bx ∈ bundleList, bx.name = x ∧ y ∈ depsOf bx
            ∧ ∀ z ∈ bundleList, z.name ≠ y) := by
  constructor
  · cases hO : bundlesOption bundleList [] with
    | error e => exact ⟨e, by simp [newApp, hO]⟩
    | ok bundles =>
      obtain ⟨hbe, hnames⟩ :=
        bundlesOption_ok_inv bundleList [] bundles (by simp) hO
      simp only [List.nil_append] at hbe hnames
      subst hbe
      have hiter' : ∀ b ∈ iter, b ∈ bundles := fun b hb => (hiter b).mp hb
      cases hA : resolveAll bundles (bundles.length + 1) iter [] [] with
      | none => exact absurd hA (resolveAll_isSome bundles iter [] hiter')
      | some v =>
        match v with
        | .ok (r, u) =>
          exfalso
          obtain ⟨bm, hbm, d, hd, hdm⟩ := hmiss
          obtain ⟨res₀, r₀, hok⟩ :=
            resolveAll_ok_forall bundles _ iter [] [] r u hA bm
              ((hiter bm).mpr hbm)
          obtain ⟨bd, hbd⟩ :=
            rdep_ok_deps_present bundles _ bm res₀ [] r₀ [] hok d hd
          obtain ⟨hbdmem, hbdn⟩ := bundlesGet_mem hbd
          exact hdm bd hbdmem hbdn
        | .error e =>
          refine ⟨e, ?_⟩
          simp [newApp, hO, registerBundles, resolveOrder, hA]
  · intro hnames0 hacyc
    have hO : bundlesOption bundleList [] = .ok bundleList := by
      have := bundlesOption_ok_of_nodup bundleList [] (by simpa using hnames0)
      simpa using this
    have hiter' : ∀ b ∈ iter, b ∈ bundleList := fun b hb => (hiter b).mp hb
    cases hA : resolveAll bundleList (bundleList.length + 1) iter [] [] with
    | none => exact absurd hA (resolveAll_isSome bundleList iter [] hiter')
    | some v =>
      match v with
      | .ok (r, u) =>
        exfalso
        obtain ⟨bm, hbm, d, hd, hdm⟩ := hmiss
        obtain ⟨res₀, r₀, hok⟩ :=
          resolveAll_ok_forall bundleList _ iter [] [] r u hA bm
            ((hiter bm).mpr hbm)
        obtain ⟨bd, hbd⟩ :=
          rdep_ok_deps_present bundleList _ bm res₀ [] r₀ [] hok d hd
        obtain ⟨hbdmem, hbdn⟩ := bundlesGet_mem hbd
        exact hdm bd hbdmem hbdn
      | .error e =>
        obtain ⟨x, y, he, bx, hbx, hbxn, hy, hmissy⟩ :=
          resolveAll_error_class bundleList hacyc
            (bundleList.length + 1) iter [] e hiter' hA
        subst he
        refine ⟨x, y, ?_, bx, hbx, hbxn, hy, hmissy⟩
        simp [newApp, hO, registerBundles, resolveOrder, hA]

/-- C3 counterexample to the claim as stated: the single bundle `a` with
dependency list `["a", "b"]` declares a dependency (`b`) on a name absent
from the set, yet construction fails with the self-dependency error for
`a`, not with an unresolved-dependency error naming `a` and `b` — another
configuration error can preempt the missing-dependency report. -/
theorem claim_c3_counterexample :
    (∃ b ∈ [(⟨"a", some ["a", "b"], none⟩ : Bundle)], ∃ d ∈ depsOf b,
      ∀ y ∈ [(⟨"a", some ["a", "b"], none⟩ : Bundle)], y.name ≠ d)
    ∧ newApp [⟨"a", some ["a", "b"], none⟩] [⟨"a", some ["a", "b"], none⟩]
      = some (.error (.selfDep "a"), [])
    ∧ newApp [⟨"a", some ["a", "b"], none⟩] [⟨"a", some ["a", "b"], none⟩]
      ≠ some (.error (.unresolvedDep "a" "b"), []) := by
  have heval : newApp [⟨"a", some ["a", "b"], none⟩]
      [⟨"a", some ["a", "b"], none⟩]
      = some (.error (.selfDep "a"), []) := rfl
  refine ⟨⟨⟨"a", some ["a", "b"], none⟩, by simp, "b", by decide, by decide⟩,
    heval, ?_⟩
  rw [heval]
  intro hcontra
  simp at hcontra

/-- C3 witness for the amended claim: one bundle depending on the absent
name `x`. -/
theorem claim_c3_witness :
    ∃ e, newApp [(⟨"a", some ["x"], none⟩ : Bundle)]
        [(⟨"a", some ["x"], none⟩ : Bundle)] = some (.error e, []) :=
  (claim_c3_missing_dep _ _ (fun _ => Iff.rfl)
    ⟨⟨"a", some ["x"], none⟩, by simp, "x", by decide, by decide⟩).1
